import Mathlib

/-!
Verification of the columnar compression encoders of this repository:
the run-length encoder (`src/pkg/rle/rle.go`) and the delta encoder with
periodic checkpointing (`src/pkg/delta-encoding/de.go`).

The Go code is shallowly embedded: each Go method becomes a pure Lean
function on an explicit state structure; Go's machine integers are
modelled as `Int` (no claim here depends on overflow), Go strings as
`String`, and fallible operations return `Option` where `none` stands
for the Go error return.  In `GetTSFromRowIDFaster`, `none` stands for
the runtime panic caused by the unguarded `tsRunEnds[len-1]` access on
an empty encoder, while `some ""` is the explicit empty-string
not-found result; everywhere else the code under scrutiny cannot
fault after its guards.
-/

namespace Rle

/-- A logical row of the RLE-encoded table (`Row` in rle.go). -/
structure Row where
  id : Int
  value : Int
  ts : String
deriving DecidableEq, Inhabited

/-- One run of the run-length encoding (`TSRun` in rle.go). -/
structure TSRun where
  ts : String
  count : Int
deriving DecidableEq, Inhabited

/-- State of the RLE encoder (`RLE` struct in rle.go). -/
structure RLE where
  idList : List Int
  valueList : List Int
  TSRuns : List TSRun
  tsRunEnds : List Int
deriving DecidableEq, Inhabited

/-- Function `InitRLE` from rle.go: the freshly created empty encoder. -/
def InitRLE : RLE := ⟨[], [], [], []⟩

/-- Helper for `AppendRow`'s merge branch: Go's
`rle.TSRuns[len(rle.TSRuns)-1].count++`. -/
def incrLastRun (runs : List TSRun) : List TSRun :=
  match runs.getLast? with
  | none => runs
  | some e => runs.dropLast ++ [⟨e.ts, e.count + 1⟩]

/-- Helper for `AppendRow`'s merge branch: Go's
`rle.tsRunEnds[len(rle.tsRunEnds)-1]++`. -/
def incrLastEnd (l : List Int) : List Int :=
  match l.getLast? with
  | none => l
  | some x => l.dropLast ++ [x + 1]

/-- Method `(*RLE).AppendRow` from rle.go. -/
def RLE.AppendRow (rle : RLE) (row : Row) : RLE :=
  let idList := rle.idList ++ [row.id]
  let valueList := rle.valueList ++ [row.value]
  if rle.TSRuns = [] ∨ rle.TSRuns.getLast?.map TSRun.ts ≠ some row.ts then
    { idList := idList, valueList := valueList,
      TSRuns := rle.TSRuns ++ [⟨row.ts, 1⟩],
      tsRunEnds :=
        if rle.tsRunEnds = [] then [1]
        else rle.tsRunEnds ++ [rle.tsRunEnds.getLast?.getD 0 + 1] }
  else
    { idList := idList, valueList := valueList,
      TSRuns := incrLastRun rle.TSRuns,
      tsRunEnds := incrLastEnd rle.tsRunEnds }

/-- The loop body of `GetTSFromRowID`: walk the runs, subtracting counts. -/
def getTSLoop : List TSRun → Int → String
  | [], _ => ""
  | e :: rest, rowID => if e.count ≥ rowID then e.ts else getTSLoop rest (rowID - e.count)

/-- Method `(*RLE).GetTSFromRowID` from rle.go: linear point query. -/
def RLE.GetTSFromRowID (rle : RLE) (rowID : Int) : String :=
  if rowID ≤ 0 ∨ rowID > rle.idList.length then ""
  else getTSLoop rle.TSRuns rowID

/-- The binary-search loop of `GetTSFromRowIDFaster` over `tsRunEnds`;
returns the final value of `low`. -/
def bsearchEnds (ends : List Int) (rowID : Int) (low high : Int) : Int :=
  if h : low ≤ high then
    let mid := (low + high) / 2
    if ends.getD mid.toNat 0 ≥ rowID then bsearchEnds ends rowID low (mid - 1)
    else bsearchEnds ends rowID (mid + 1) high
  else low
termination_by (high + 1 - low).toNat
decreasing_by all_goals omega

/-- Method `(*RLE).GetTSFromRowIDFaster` from rle.go.  Here `none` models the Go
runtime panic: the guard evaluates `rle.tsRunEnds[len(rle.tsRunEnds)-1]`
without checking that the list is nonempty (the `rowID <= 0` disjunct
short-circuits first, as in Go). -/
def RLE.GetTSFromRowIDFaster (rle : RLE) (rowID : Int) : Option String :=
  if rowID ≤ 0 then some ""
  else
    match rle.tsRunEnds.getLast? with
    | none => none
    | some lastEnd =>
      if rowID > lastEnd then some ""
      else
        let low := bsearchEnds rle.tsRunEnds rowID 0 ((rle.tsRunEnds.length : Int) - 1)
        some ((rle.TSRuns.getD low.toNat ⟨"", 0⟩).ts)

/-- Method `(*RLE).ReconstructRow` from rle.go. -/
def RLE.ReconstructRow (rle : RLE) (rowID : Int) : Option Row :=
  if rowID ≤ 0 ∨ rowID > rle.idList.length then none
  else
    (rle.GetTSFromRowIDFaster rowID).map fun ts =>
      ⟨rle.idList.getD (rowID.toNat - 1) 0, rle.valueList.getD (rowID.toNat - 1) 0, ts⟩

/-- The loop body of `GetCountofTS`: first run with a matching key. -/
def countLoop : List TSRun → String → Option Int
  | [], _ => none
  | e :: rest, ts => if e.ts = ts then some e.count else countLoop rest ts

/-- Method `(*RLE).GetCountofTS` from rle.go: linear count query; `none` is the
`ts not found` error. -/
def RLE.GetCountofTS (rle : RLE) (ts : String) : Option Int :=
  countLoop rle.TSRuns ts

/-- The binary-search loop of `GetCountofTSFaster` over the runs,
comparing keys. -/
def countBsearch (runs : List TSRun) (ts : String) (low high : Int) : Option Int :=
  if h : low ≤ high then
    let mid := (low + high) / 2
    let e := runs.getD mid.toNat ⟨"", 0⟩
    if e.ts = ts then some e.count
    else if e.ts < ts then countBsearch runs ts (mid + 1) high
    else countBsearch runs ts low (mid - 1)
  else none
termination_by (high + 1 - low).toNat
decreasing_by all_goals omega

/-- Method `(*RLE).GetCountofTSFaster` from rle.go: binary-search count query;
`none` is the `ts not found` error. -/
def RLE.GetCountofTSFaster (rle : RLE) (ts : String) : Option Int :=
  countBsearch rle.TSRuns ts 0 ((rle.TSRuns.length : Int) - 1)

/-- The encoder state reached by appending `rows` in order to a fresh
encoder. -/
def buildRLE (rows : List Row) : RLE := rows.foldl RLE.AppendRow InitRLE

end Rle

namespace Delta

/-- A logical row of the delta-encoded table (`Row` in de.go). -/
structure Row where
  id : Int
  value : Int
  ts : Int
deriving DecidableEq, Inhabited

/-- State of the delta encoder (`DeltaEncoding` struct in de.go). -/
structure DeltaEncoding where
  idList : List Int
  deltaValueList : List Int
  deltaTsList : List Int
  originalRows : List Row
  lastValue : Int
  lastTs : Int
  checkpointInterval : Nat
  checkpointValues : List Int
  checkpointTs : List Int
deriving DecidableEq, Inhabited

/-- Function `InitDE` from de.go: empty encoder with `checkpointInterval = 4`. -/
def InitDE : DeltaEncoding := ⟨[], [], [], [], 0, 0, 4, [], []⟩

/-- Method `(*DeltaEncoding).AppendRow` from de.go. -/
def DeltaEncoding.AppendRow (de : DeltaEncoding) (row : Row) : DeltaEncoding :=
  let de1 :=
    if de.idList.length = 0 then
      { de with
        deltaValueList := de.deltaValueList ++ [0],
        deltaTsList := de.deltaTsList ++ [0],
        checkpointValues := de.checkpointValues ++ [row.value],
        checkpointTs := de.checkpointTs ++ [row.ts] }
    else
      { de with
        deltaValueList := de.deltaValueList ++ [row.value - de.lastValue],
        deltaTsList := de.deltaTsList ++ [row.ts - de.lastTs] }
  let de2 :=
    { de1 with
      idList := de1.idList ++ [row.id],
      lastValue := row.value,
      lastTs := row.ts,
      originalRows := de1.originalRows ++ [row] }
  if de2.idList.length % de2.checkpointInterval = 0 then
    { de2 with
      checkpointValues := de2.checkpointValues ++ [row.value],
      checkpointTs := de2.checkpointTs ++ [row.ts] }
  else de2

/-- Iterated body of the accumulation loop of `ReconstructRow`: starting at
index `lo`, add up `n` consecutive entries of `l` (out-of-range entries read
as 0; on reachable states the Go loop only reads in-range entries). -/
def sumCount (l : List Int) : Nat → Nat → Int
  | _, 0 => 0
  | lo, n + 1 => l.getD lo 0 + sumCount l (lo + 1) n

/-- The accumulation loop of `ReconstructRow`: sum of `l[lo..hi]`, inclusive
bounds, i.e. `hi + 1 - lo` entries starting at `lo`, matching the Go loop
`for ind := lo; ind <= rowIndex; ind++`. -/
def deltaSumFrom (l : List Int) (lo hi : Nat) : Int :=
  sumCount l lo (hi + 1 - lo)

/-- Method `(*DeltaEncoding).ReconstructRow` from de.go. -/
def DeltaEncoding.ReconstructRow (de : DeltaEncoding) (rowID : Int) : Option Row :=
  if rowID ≤ 0 ∨ rowID > de.idList.length then none
  else
    let rowIndex := rowID.toNat - 1
    let checkpointIndex := rowIndex / de.checkpointInterval
    let v := de.checkpointValues.getD checkpointIndex 0 +
      deltaSumFrom de.deltaValueList (checkpointIndex * de.checkpointInterval) rowIndex
    let t := de.checkpointTs.getD checkpointIndex 0 +
      deltaSumFrom de.deltaTsList (checkpointIndex * de.checkpointInterval) rowIndex
    some ⟨rowID, v, t⟩

/-- The loop of `ReconstructTable`: reconstruct every listed id,
propagating the first failure. -/
def reconstructList (de : DeltaEncoding) : List Int → Option (List Row)
  | [] => some []
  | id :: rest =>
    match de.ReconstructRow id with
    | none => none
    | some r =>
      match reconstructList de rest with
      | none => none
      | some rs => some (r :: rs)

/-- Method `(*DeltaEncoding).ReconstructTable` from de.go. -/
def DeltaEncoding.ReconstructTable (de : DeltaEncoding) : Option (List Row) :=
  reconstructList de de.idList

/-- Method `(*DeltaEncoding).VerifyDeltaEncodingCorrectness` from de.go. -/
def DeltaEncoding.VerifyDeltaEncodingCorrectness (de : DeltaEncoding) : Bool :=
  match de.ReconstructTable with
  | none => false
  | some deRows =>
    (List.range de.originalRows.length).all
      fun ind => decide (deRows.getD ind default = de.originalRows.getD ind default)

/-- The encoder state reached by appending `rows` in order to a fresh
encoder. -/
def buildDE (rows : List Row) : DeltaEncoding := rows.foldl DeltaEncoding.AppendRow InitDE

end Delta

namespace Rle

/-- Cumulative sums of a list: the intended content of `tsRunEnds`
(`psums [c0, c1, c2] = [c0, c0+c1, c0+c1+c2]`). -/
def psums : List Int → List Int
  | [] => []
  | c :: rest => c :: (psums rest).map (c + ·)

/-- Structural invariant of every reachable RLE encoder state:
`tsRunEnds` is the list of cumulative run counts, every run count is
positive, no two adjacent runs share a key, the id and value columns
stay parallel, and the run counts add up to the number of rows. -/
def RLEInv (rle : RLE) : Prop :=
  rle.tsRunEnds = psums (rle.TSRuns.map TSRun.count) ∧
  (∀ r ∈ rle.TSRuns, 1 ≤ r.count) ∧
  rle.TSRuns.Chain' (fun a b => a.ts ≠ b.ts) ∧
  rle.valueList.length = rle.idList.length ∧
  (rle.TSRuns.map TSRun.count).sum = rle.idList.length

end Rle

namespace Delta

/-- Tail of the delta column: `deltasFrom p [y₀, y₁, ...] = [y₀ - p, y₁ - y₀, ...]`. -/
def deltasFrom : Int → List Int → List Int
  | _, [] => []
  | p, y :: rest => (y - p) :: deltasFrom y rest

/-- The delta column built from a column of absolute values: a leading `0`
sentinel followed by consecutive differences. -/
def deltas : List Int → List Int
  | [] => []
  | x :: rest => 0 :: deltasFrom x rest

/-- The checkpoint column built from a column `xs` of absolute values with
`checkpointInterval = 4`: the first value, followed by the value of the
`g*4`-th appended row (0-based index `g*4 - 1`) for each `g ≥ 1` with
`g*4 ≤ xs.length`. -/
def cps (xs : List Int) : List Int :=
  if xs.length = 0 then []
  else xs.getD 0 0 :: (List.range (xs.length / 4)).map fun g => xs.getD ((g + 1) * 4 - 1) 0

end Delta

theorem getD_map_of_lt {α β : Type} (f : α → β) (l : List α) (i : Nat) (da : α) (db : β)
    (h : i < l.length) : (l.map f).getD i db = f (l.getD i da) := by
  simp [List.getD_eq_get?, List.get?_map, List.getElem?_eq_getElem h]

theorem getD_of_lt {α : Type} (l : List α) (i : Nat) (d : α) (h : i < l.length) :
    l.getD i d = l[i] := by
  simp [List.getD_eq_get?, List.getElem?_eq_getElem h]

namespace Rle

theorem psums_length (l : List Int) : (psums l).length = l.length := by
  induction l with
  | nil => rfl
  | cons c rest ih => simp [psums, ih]

theorem psums_concat (l : List Int) (c : Int) : psums (l ++ [c]) = psums l ++ [l.sum + c] := by
  induction l with
  | nil => simp [psums]
  | cons d rest ih => simp [psums, ih, add_assoc]

theorem psums_getLast? (l : List Int) (h : l ≠ []) : (psums l).getLast? = some l.sum := by
  induction l using List.reverseRecOn with
  | nil => exact absurd rfl h
  | append_singleton rest c _ => simp [psums_concat]

theorem RLEInv_init : RLEInv InitRLE := by
  refine ⟨rfl, ?_, ?_, rfl, rfl⟩ <;> simp [InitRLE]

theorem RLEInv_append (rle : RLE) (row : Row) (h : RLEInv rle) : RLEInv (rle.AppendRow row) := by
  obtain ⟨hends, hpos, hchain, hlen, hsum⟩ := h
  rw [RLE.AppendRow]
  by_cases hc : rle.TSRuns = [] ∨ rle.TSRuns.getLast?.map TSRun.ts ≠ some row.ts
  · rw [if_pos hc]
    by_cases hnil : rle.TSRuns = []
    · have hends0 : rle.tsRunEnds = [] := by rw [hends, hnil]; rfl
      refine ⟨?_, ?_, ?_, ?_, ?_⟩
      · simp [hends0, hnil, psums]
      · intro r hr
        rw [hnil] at hr
        simp at hr
        simp [hr]
      · rw [hnil]
        simp
      · simp [hlen]
      · rw [hnil]
        simp [hnil] at hsum
        simp [← hsum]
    · have hends0 : rle.tsRunEnds ≠ [] := by
        rw [hends]
        intro hcon
        have hl := psums_length (rle.TSRuns.map TSRun.count)
        rw [hcon] at hl
        simp at hl
        exact hnil (List.length_eq_zero.mp (by omega))
      refine ⟨?_, ?_, ?_, ?_, ?_⟩
      · rw [if_neg hends0]
        rw [hends, psums_getLast? _ (by simpa using hnil)]
        simp [psums_concat]
      · intro r hr
        rcases List.mem_append.mp hr with h1 | h1
        · exact hpos r h1
        · simp at h1
          simp [h1]
      · rw [List.chain'_append]
        refine ⟨hchain, by simp, ?_⟩
        intro x hx y hy
        simp at hy
        subst hy
        rcases hc with hc | hc
        · exact absurd hc hnil
        · intro hxy
          apply hc
          rw [hx]
          simp [hxy]
      · simp [hlen]
      · simp
        omega
  · rw [if_neg hc]
    push_neg at hc
    obtain ⟨hnil, hlast⟩ := hc
    obtain ⟨e, he⟩ : ∃ e, rle.TSRuns.getLast? = some e := by
      cases hg : rle.TSRuns.getLast? with
      | none => exact absurd (List.getLast?_eq_none_iff.mp hg) hnil
      | some e => exact ⟨e, rfl⟩
    have hsplit : rle.TSRuns = rle.TSRuns.dropLast ++ [e] := by
      have := List.dropLast_append_getLast? e he
      exact this.symm
    have hrun : incrLastRun rle.TSRuns = rle.TSRuns.dropLast ++ [⟨e.ts, e.count + 1⟩] := by
      rw [incrLastRun, he]
    have hendsplit : rle.tsRunEnds =
        psums ((rle.TSRuns.dropLast.map TSRun.count)) ++
          [(rle.TSRuns.dropLast.map TSRun.count).sum + e.count] := by
      rw [hends]
      conv_lhs => rw [hsplit]
      simp [psums_concat]
    have hend : incrLastEnd rle.tsRunEnds =
        psums ((rle.TSRuns.dropLast.map TSRun.count)) ++
          [(rle.TSRuns.dropLast.map TSRun.count).sum + e.count + 1] := by
      rw [incrLastEnd, hendsplit]
      rw [List.getLast?_concat, List.dropLast_concat]
    refine ⟨?_, ?_, ?_, ?_, ?_⟩
    · rw [hend, hrun]
      simp [psums_concat, add_assoc]
    · intro r hr
      rw [hrun] at hr
      rcases List.mem_append.mp hr with h1 | h1
      · exact hpos r (by rw [hsplit]; exact List.mem_append.mpr (Or.inl h1))
      · have hec : 1 ≤ e.count := hpos e (by rw [hsplit]; simp)
        simp at h1
        subst h1
        simp
        omega
    · rw [hrun]
      conv at hchain => rw [hsplit]
      rw [List.chain'_append] at hchain ⊢
      refine ⟨hchain.1, by simp, ?_⟩
      intro x hx y hy
      simp at hy
      subst hy
      exact hchain.2.2 x hx e (by simp)
    · simp [hlen]
    · rw [hrun]
      have hTS : (rle.TSRuns.map TSRun.count).sum =
          (rle.TSRuns.dropLast.map TSRun.count).sum + e.count := by
        conv_lhs => rw [hsplit]
        simp
      simp
      rw [List.map_dropLast] at hTS
      omega

theorem RLEInv_foldl (rows : List Row) : ∀ (rle : RLE), RLEInv rle →
    RLEInv (rows.foldl RLE.AppendRow rle) := by
  induction rows with
  | nil => exact fun rle h => h
  | cons r rest ih => exact fun rle h => ih _ (RLEInv_append rle r h)

theorem RLEInv_build (rows : List Row) : RLEInv (buildRLE rows) :=
  RLEInv_foldl rows InitRLE RLEInv_init

theorem psums_chain_lt (l : List Int) (h : ∀ c ∈ l, 1 ≤ c) : List.Chain' (· < ·) (psums l) := by
  induction l with
  | nil => simp [psums]
  | cons c rest ih =>
    rw [psums, List.chain'_cons']
    constructor
    · intro b hb
      cases hr : rest with
      | nil => rw [hr] at hb; simp [psums] at hb
      | cons d tl =>
        rw [hr, psums] at hb
        simp at hb
        have hd : 1 ≤ d := h d (by rw [hr]; simp)
        omega
    · rw [List.chain'_map]
      exact List.Chain'.imp (fun a b hab => by omega)
        (ih (fun x hx => h x (List.mem_cons_of_mem c hx)))

theorem take_sum_mono (l : List Int) (h : ∀ c ∈ l, 0 ≤ c) {a b : Nat} (hab : a ≤ b) :
    (l.take a).sum ≤ (l.take b).sum := by
  have hb : l.take b = l.take a ++ (l.drop a).take (b - a) := by
    rw [← List.take_add]
    congr 1
    omega
  rw [hb, List.sum_append]
  have h0 : 0 ≤ ((l.drop a).take (b - a)).sum :=
    List.sum_nonneg (fun x hx => h x (List.mem_of_mem_drop (List.mem_of_mem_take hx)))
  omega

theorem psums_getD (l : List Int) : ∀ (i : Nat), i < l.length →
    (psums l).getD i 0 = (l.take (i + 1)).sum := by
  induction l with
  | nil => intro i hi; simp at hi
  | cons c rest ih =>
    intro i hi
    cases i with
    | zero => simp [psums]
    | succ i =>
      rw [psums, List.getD_cons_succ]
      have hi' : i < rest.length := by simpa using hi
      have hlen : i < (psums rest).length := by rw [psums_length]; exact hi'
      rw [getD_map_of_lt _ _ _ 0 _ hlen, ih i hi', List.take_succ_cons]
      simp

theorem psums_getD_mono (l : List Int) (h : ∀ c ∈ l, 1 ≤ c) {i j : Nat} (hij : i ≤ j)
    (hj : j < l.length) : (psums l).getD i 0 ≤ (psums l).getD j 0 := by
  rw [psums_getD l i (lt_of_le_of_lt hij hj), psums_getD l j hj]
  exact take_sum_mono l (fun c hc => by have := h c hc; omega) (by omega)

theorem AppendRow_TSRuns_new (rle : RLE) (row : Row)
    (h : rle.TSRuns = [] ∨ rle.TSRuns.getLast?.map TSRun.ts ≠ some row.ts) :
    (rle.AppendRow row).TSRuns = rle.TSRuns ++ [⟨row.ts, 1⟩] := by
  rw [RLE.AppendRow, if_pos h]

theorem AppendRow_TSRuns_merge (rle : RLE) (row : Row) (init : List TSRun) (e : TSRun)
    (hsplit : rle.TSRuns = init ++ [e]) (hts : row.ts = e.ts) :
    (rle.AppendRow row).TSRuns = init ++ [⟨e.ts, e.count + 1⟩] := by
  have hcond : ¬ (rle.TSRuns = [] ∨ rle.TSRuns.getLast?.map TSRun.ts ≠ some row.ts) := by
    push_neg
    constructor
    · rw [hsplit]; simp
    · rw [hsplit, List.getLast?_concat]
      simp [hts]
  rw [RLE.AppendRow, if_neg hcond]
  show incrLastRun rle.TSRuns = _
  rw [incrLastRun, hsplit, List.getLast?_concat, List.dropLast_concat]

theorem foldl_append_same_ts (l : List Row) : ∀ (rle : RLE) (init : List TSRun) (e : TSRun),
    rle.TSRuns = init ++ [e] → (∀ r ∈ l, r.ts = e.ts) →
    (l.foldl RLE.AppendRow rle).TSRuns = init ++ [⟨e.ts, e.count + l.length⟩] := by
  induction l with
  | nil =>
    intro rle init e hsplit _
    simp [hsplit]
  | cons r rest ih =>
    intro rle init e hsplit hall
    have hr : r.ts = e.ts := hall r (by simp)
    rw [List.foldl_cons]
    have hstep := AppendRow_TSRuns_merge rle r init e hsplit hr
    have hrec := ih (rle.AppendRow r) init ⟨e.ts, e.count + 1⟩ hstep
      (fun x hx => hall x (by simp [hx]))
    rw [hrec]
    have : e.count + 1 + (rest.length : Int) = e.count + ((rest.length + 1 : Nat) : Int) := by
      push_cast
      ring
    simp [this]

theorem foldl_new_run_ts (rle : RLE) (ts : String) (l : List Row) (hne : l ≠ [])
    (hall : ∀ r ∈ l, r.ts = ts) (hlast : rle.TSRuns.getLast?.map TSRun.ts ≠ some ts) :
    (l.foldl RLE.AppendRow rle).TSRuns = rle.TSRuns ++ [⟨ts, (l.length : Int)⟩] := by
  cases l with
  | nil => exact absurd rfl hne
  | cons r rest =>
    have hr : r.ts = ts := hall r (by simp)
    rw [List.foldl_cons]
    have hstep : (rle.AppendRow r).TSRuns = rle.TSRuns ++ [⟨ts, 1⟩] := by
      rw [AppendRow_TSRuns_new rle r (Or.inr (by rw [hr]; exact hlast)), hr]
    have hrec := foldl_append_same_ts rest (rle.AppendRow r) rle.TSRuns ⟨ts, 1⟩ hstep
      (fun x hx => hall x (by simp [hx]))
    rw [hrec]
    have : (1 : Int) + (rest.length : Int) = ((rest.length + 1 : Nat) : Int) := by
      push_cast
      ring
    simp [this]

/-- Claim C8: every sequence of `AppendRow` calls preserves the RLE state
invariant — `tsRunEnds` is strictly increasing, its last entry equals
`len(idList)`, and no two adjacent runs share a key — and appending `k`
consecutive rows with an identical key `ts` onto any state whose last run
(if any) has a different key produces exactly one new run of count `k`. -/
theorem rle_run_merge_invariant :
    (∀ rows : List Row,
      List.Chain' (· < ·) (buildRLE rows).tsRunEnds ∧
      (buildRLE rows).tsRunEnds.getLast?.getD 0 = (buildRLE rows).idList.length ∧
      List.Chain' (fun a b => a.ts ≠ b.ts) (buildRLE rows).TSRuns) ∧
    (∀ (rle : RLE) (ts : String) (l : List Row), l ≠ [] → (∀ r ∈ l, r.ts = ts) →
      rle.TSRuns.getLast?.map TSRun.ts ≠ some ts →
      (l.foldl RLE.AppendRow rle).TSRuns = rle.TSRuns ++ [⟨ts, (l.length : Int)⟩]) := by
  constructor
  · intro rows
    obtain ⟨hends, hpos, hchain, _, hsum⟩ := RLEInv_build rows
    refine ⟨?_, ?_, hchain⟩
    · rw [hends]
      exact psums_chain_lt _ (fun c hc => by
        obtain ⟨r, hr, hrc⟩ := List.mem_map.mp hc
        exact hrc ▸ hpos r hr)
    · by_cases hnil : (buildRLE rows).TSRuns = []
      · rw [hends, hnil]
        have : (buildRLE rows).idList.length = 0 := by
          have := hsum
          rw [hnil] at this
          simp at this
          omega
        simp [psums, this]
      · rw [hends, psums_getLast? _ (by simpa using hnil), hsum]
        rfl
  · exact fun rle ts l hne hall hlast => foldl_new_run_ts rle ts l hne hall hlast

/-- Witness for C8 at concrete inputs: the invariant conclusions hold for the
six-row scenario of the repository's test, and appending three rows with the
same key to the empty encoder yields the single run `(ts, 3)`. -/
theorem rle_run_merge_invariant_witness :
    (List.Chain' (· < ·) (buildRLE [⟨1, 100, "10:00:00"⟩, ⟨2, 200, "10:00:00"⟩,
        ⟨3, 300, "10:00:02"⟩]).tsRunEnds ∧
      (buildRLE [⟨1, 100, "10:00:00"⟩, ⟨2, 200, "10:00:00"⟩,
        ⟨3, 300, "10:00:02"⟩]).tsRunEnds.getLast?.getD 0 =
        (buildRLE [⟨1, 100, "10:00:00"⟩, ⟨2, 200, "10:00:00"⟩,
          ⟨3, 300, "10:00:02"⟩]).idList.length ∧
      List.Chain' (fun a b => a.ts ≠ b.ts) (buildRLE [⟨1, 100, "10:00:00"⟩,
        ⟨2, 200, "10:00:00"⟩, ⟨3, 300, "10:00:02"⟩]).TSRuns) ∧
    (([⟨1, 7, "x"⟩, ⟨2, 8, "x"⟩, ⟨3, 9, "x"⟩] : List Row).foldl RLE.AppendRow InitRLE).TSRuns =
      InitRLE.TSRuns ++ [⟨"x", (3 : Int)⟩] := by
  constructor
  · exact rle_run_merge_invariant.1 [⟨1, 100, "10:00:00"⟩, ⟨2, 200, "10:00:00"⟩,
      ⟨3, 300, "10:00:02"⟩]
  · exact rle_run_merge_invariant.2 InitRLE "x" [⟨1, 7, "x"⟩, ⟨2, 8, "x"⟩, ⟨3, 9, "x"⟩]
      (by simp) (by intro r hr; fin_cases hr <;> rfl) (by simp [InitRLE])

theorem bsearchEnds_stop (ends : List Int) (rowID low high : Int) (h : ¬ low ≤ high) :
    bsearchEnds ends rowID low high = low := by
  rw [bsearchEnds, dif_neg h]

theorem bsearchEnds_step (ends : List Int) (rowID low high : Int) (h : low ≤ high) :
    bsearchEnds ends rowID low high =
      if ends.getD ((low + high) / 2).toNat 0 ≥ rowID then
        bsearchEnds ends rowID low ((low + high) / 2 - 1)
      else bsearchEnds ends rowID ((low + high) / 2 + 1) high := by
  rw [bsearchEnds, dif_pos h]

theorem bsearchEnds_spec (ends : List Int) (rowID : Int)
    (hmono : ∀ i j : Nat, i ≤ j → j < ends.length → ends.getD i 0 ≤ ends.getD j 0) :
    ∀ (fuel : Nat) (low high : Int), (high + 1 - low).toNat ≤ fuel →
    0 ≤ low → low ≤ (ends.length : Int) → high < (ends.length : Int) →
    (∀ i : Nat, (i : Int) < low → i < ends.length → ends.getD i 0 < rowID) →
    (∀ i : Nat, high < (i : Int) → i < ends.length → rowID ≤ ends.getD i 0) →
    0 ≤ bsearchEnds ends rowID low high ∧
    bsearchEnds ends rowID low high ≤ (ends.length : Int) ∧
    (∀ i : Nat, (i : Int) < bsearchEnds ends rowID low high → i < ends.length →
      ends.getD i 0 < rowID) ∧
    (∀ i : Nat, bsearchEnds ends rowID low high ≤ (i : Int) → i < ends.length →
      rowID ≤ ends.getD i 0) := by
  intro fuel
  induction fuel with
  | zero =>
    intro low high hfuel h0 hlen _ hleft hright
    rw [bsearchEnds_stop ends rowID low high (by omega)]
    exact ⟨h0, hlen, hleft, fun i hi hilen => hright i (by omega) hilen⟩
  | succ fuel ih =>
    intro low high hfuel h0 hlen hhigh hleft hright
    by_cases hlh : low ≤ high
    · rw [bsearchEnds_step ends rowID low high hlh]
      have hmidlo : low ≤ (low + high) / 2 := by omega
      have hmidhi : (low + high) / 2 ≤ high := by omega
      by_cases hcmp : ends.getD ((low + high) / 2).toNat 0 ≥ rowID
      · rw [if_pos hcmp]
        apply ih low ((low + high) / 2 - 1) (by omega) h0 hlen (by omega) hleft
        intro i hi hilen
        calc rowID ≤ ends.getD ((low + high) / 2).toNat 0 := hcmp
          _ ≤ ends.getD i 0 := hmono ((low + high) / 2).toNat i (by omega) hilen
      · rw [if_neg hcmp]
        apply ih ((low + high) / 2 + 1) high (by omega) (by omega) (by omega) hhigh
        · intro i hi hilen
          have hle : ends.getD i 0 ≤ ends.getD ((low + high) / 2).toNat 0 :=
            hmono i ((low + high) / 2).toNat (by omega) (by omega)
          omega
        · exact hright
    · rw [bsearchEnds_stop ends rowID low high hlh]
      exact ⟨h0, hlen, hleft, fun i hi hilen => hright i (by omega) hilen⟩

theorem getTSLoop_spec (runs : List TSRun) : ∀ (x : Int) (j : Nat),
    j < runs.length →
    x ≤ (psums (runs.map TSRun.count)).getD j 0 →
    (∀ i : Nat, i < j → (psums (runs.map TSRun.count)).getD i 0 < x) →
    getTSLoop runs x = (runs.getD j ⟨"", 0⟩).ts := by
  induction runs with
  | nil => intro x j hj _ _; simp at hj
  | cons e rest ih =>
    intro x j hj hx hlt
    rw [getTSLoop]
    by_cases hc : e.count ≥ x
    · rw [if_pos hc]
      cases j with
      | zero => rfl
      | succ j =>
        exfalso
        have h0 := hlt 0 (by omega)
        rw [List.map_cons, psums, List.getD_cons_zero] at h0
        omega
    · rw [if_neg hc]
      cases j with
      | zero =>
        exfalso
        rw [List.map_cons, psums, List.getD_cons_zero] at hx
        omega
      | succ j =>
        have hj' : j < rest.length := by simpa using hj
        rw [List.getD_cons_succ]
        apply ih (x - e.count) j hj'
        · rw [List.map_cons, psums, List.getD_cons_succ] at hx
          have hlenj : j < (psums (rest.map TSRun.count)).length := by
            rw [psums_length, List.length_map]; exact hj'
          rw [getD_map_of_lt _ _ _ 0 _ hlenj] at hx
          omega
        · intro i hi
          have hlti := hlt (i + 1) (by omega)
          rw [List.map_cons, psums, List.getD_cons_succ] at hlti
          have hleni : i < (psums (rest.map TSRun.count)).length := by
            rw [psums_length, List.length_map]; omega
          rw [getD_map_of_lt _ _ _ 0 _ hleni] at hlti
          omega

/-- Claim C3: on every encoder state built by `AppendRow` calls and every
row id in the valid range `[1, n]`, the binary-search strategy
`GetTSFromRowIDFaster` returns (as an explicit success) exactly the key
that the linear strategy `GetTSFromRowID` returns. -/
theorem getTS_strategies_agree (rows : List Row) (rowID : Int)
    (h1 : 1 ≤ rowID) (h2 : rowID ≤ ((buildRLE rows).idList.length : Int)) :
    (buildRLE rows).GetTSFromRowIDFaster rowID =
      some ((buildRLE rows).GetTSFromRowID rowID) := by
  obtain ⟨hends, hpos, _, _, hsum⟩ := RLEInv_build rows
  have hcounts : ∀ c ∈ (buildRLE rows).TSRuns.map TSRun.count, 1 ≤ c := by
    intro c hc
    obtain ⟨r, hr, hrc⟩ := List.mem_map.mp hc
    exact hrc ▸ hpos r hr
  have hTSne : (buildRLE rows).TSRuns ≠ [] := by
    intro hcon
    rw [hcon] at hsum
    simp at hsum
    omega
  have hlast : (buildRLE rows).tsRunEnds.getLast? =
      some ((buildRLE rows).idList.length : Int) := by
    rw [hends, psums_getLast? _ (by simpa using hTSne), hsum]
  have hlenE : (buildRLE rows).tsRunEnds.length = (buildRLE rows).TSRuns.length := by
    rw [hends, psums_length, List.length_map]
  have hEne : (buildRLE rows).tsRunEnds.length ≠ 0 := by
    rw [hlenE]
    simpa using hTSne
  have hmono : ∀ i j : Nat, i ≤ j → j < (buildRLE rows).tsRunEnds.length →
      (buildRLE rows).tsRunEnds.getD i 0 ≤ (buildRLE rows).tsRunEnds.getD j 0 := by
    intro i j hij hj
    rw [hends]
    rw [hends, psums_length] at hj
    exact psums_getD_mono _ hcounts hij hj
  obtain ⟨hr0, hrlen, hrleft, hrright⟩ := bsearchEnds_spec (buildRLE rows).tsRunEnds rowID
    hmono (buildRLE rows).tsRunEnds.length 0 (((buildRLE rows).tsRunEnds.length : Int) - 1)
    (by omega) (by omega) (by omega) (by omega)
    (fun i hi _ => absurd hi (by omega))
    (fun i hi hilen => absurd hilen (by omega))
  have hgetlast : (buildRLE rows).tsRunEnds.getD ((buildRLE rows).tsRunEnds.length - 1) 0 =
      ((buildRLE rows).idList.length : Int) := by
    have hq := List.getLast?_eq_get? (buildRLE rows).tsRunEnds
    rw [hlast] at hq
    rw [List.getD_eq_get?, ← hq]
    rfl
  set r := bsearchEnds (buildRLE rows).tsRunEnds rowID 0
    (((buildRLE rows).tsRunEnds.length : Int) - 1) with hrdef
  have hrlt : r < ((buildRLE rows).tsRunEnds.length : Int) := by
    by_contra hcon
    have := hrleft ((buildRLE rows).tsRunEnds.length - 1) (by omega) (by omega)
    rw [hgetlast] at this
    omega
  have hfound : rowID ≤ (buildRLE rows).tsRunEnds.getD r.toNat 0 :=
    hrright r.toNat (by omega) (by omega)
  have hbelow : ∀ i : Nat, i < r.toNat → (buildRLE rows).tsRunEnds.getD i 0 < rowID :=
    fun i hi => hrleft i (by omega) (by omega)
  simp only [RLE.GetTSFromRowIDFaster, hlast]
  rw [if_neg (show ¬ rowID ≤ 0 by omega)]
  rw [if_neg (show ¬ rowID > ((buildRLE rows).idList.length : Int) by omega)]
  rw [RLE.GetTSFromRowID, if_neg (show ¬ (rowID ≤ 0 ∨
    rowID > ((buildRLE rows).idList.length : Int)) by push_neg; omega)]
  have hrlenTS : r.toNat < (buildRLE rows).TSRuns.length := by
    rw [← hlenE]
    omega
  rw [getTSLoop_spec (buildRLE rows).TSRuns rowID r.toNat hrlenTS
    (by rw [← hends]; exact hfound)
    (fun i hi => by rw [← hends]; exact hbelow i hi)]

/-- Witness for C3: row id 4 of the six-row test scenario, where both
strategies must return the key of the middle run. -/
theorem getTS_strategies_agree_witness :
    (buildRLE [⟨1, 100, "10:00:00"⟩, ⟨2, 200, "10:00:00"⟩, ⟨3, 300, "10:00:02"⟩,
        ⟨4, 400, "10:00:02"⟩, ⟨5, 500, "10:00:02"⟩,
        ⟨6, 600, "10:00:03"⟩]).GetTSFromRowIDFaster 4 =
      some ((buildRLE [⟨1, 100, "10:00:00"⟩, ⟨2, 200, "10:00:00"⟩, ⟨3, 300, "10:00:02"⟩,
        ⟨4, 400, "10:00:02"⟩, ⟨5, 500, "10:00:02"⟩,
        ⟨6, 600, "10:00:03"⟩]).GetTSFromRowID 4) :=
  getTS_strategies_agree [⟨1, 100, "10:00:00"⟩, ⟨2, 200, "10:00:00"⟩, ⟨3, 300, "10:00:02"⟩,
    ⟨4, 400, "10:00:02"⟩, ⟨5, 500, "10:00:02"⟩, ⟨6, 600, "10:00:03"⟩] 4
    (by decide) (by decide)

theorem countBsearch_stop (runs : List TSRun) (ts : String) (low high : Int)
    (h : ¬ low ≤ high) : countBsearch runs ts low high = none := by
  rw [countBsearch, dif_neg h]

theorem countBsearch_step (runs : List TSRun) (ts : String) (low high : Int) (h : low ≤ high) :
    countBsearch runs ts low high =
      if (runs.getD ((low + high) / 2).toNat ⟨"", 0⟩).ts = ts then
        some (runs.getD ((low + high) / 2).toNat ⟨"", 0⟩).count
      else if (runs.getD ((low + high) / 2).toNat ⟨"", 0⟩).ts < ts then
        countBsearch runs ts ((low + high) / 2 + 1) high
      else countBsearch runs ts low ((low + high) / 2 - 1) := by
  rw [countBsearch, dif_pos h]

theorem countLoop_eq_none (runs : List TSRun) (ts : String)
    (h : ∀ i : Nat, i < runs.length → (runs.getD i ⟨"", 0⟩).ts ≠ ts) :
    countLoop runs ts = none := by
  induction runs with
  | nil => rfl
  | cons e rest ih =>
    have h0 := h 0 (by simp)
    rw [List.getD_cons_zero] at h0
    rw [countLoop, if_neg h0]
    refine ih (fun i hi => ?_)
    have hsucc := h (i + 1) (by simpa using Nat.succ_lt_succ hi)
    rwa [List.getD_cons_succ] at hsucc

theorem countLoop_found (runs : List TSRun) (ts : String) : ∀ (j : Nat),
    j < runs.length → (runs.getD j ⟨"", 0⟩).ts = ts →
    (∀ i : Nat, i < j → (runs.getD i ⟨"", 0⟩).ts ≠ ts) →
    countLoop runs ts = some (runs.getD j ⟨"", 0⟩).count := by
  induction runs with
  | nil => intro j hj _ _; simp at hj
  | cons e rest ih =>
    intro j hj hts hbefore
    cases j with
    | zero =>
      rw [List.getD_cons_zero] at hts ⊢
      rw [countLoop, if_pos hts]
    | succ j =>
      have hb0 := hbefore 0 (by omega)
      rw [List.getD_cons_zero] at hb0
      rw [countLoop, if_neg hb0]
      rw [List.getD_cons_succ] at hts ⊢
      refine ih j (by simpa using hj) hts (fun i hi => ?_)
      have hib := hbefore (i + 1) (by omega)
      rwa [List.getD_cons_succ] at hib

theorem countLoop_some_of_mem (runs : List TSRun) (ts : String)
    (h : ∃ r ∈ runs, r.ts = ts) : ∃ c, countLoop runs ts = some c := by
  induction runs with
  | nil => obtain ⟨r, hr, _⟩ := h; simp at hr
  | cons e rest ih =>
    by_cases hc : e.ts = ts
    · exact ⟨e.count, by rw [countLoop, if_pos hc]⟩
    · obtain ⟨r, hr, hrts⟩ := h
      rcases List.mem_cons.mp hr with h1 | h1
      · exact absurd (h1 ▸ hrts) hc
      · obtain ⟨c, hcc⟩ := ih ⟨r, h1, hrts⟩
        exact ⟨c, by rw [countLoop, if_neg hc]; exact hcc⟩

theorem countLoop_none_of_not_mem (runs : List TSRun) (ts : String)
    (h : ∀ r ∈ runs, r.ts ≠ ts) : countLoop runs ts = none := by
  induction runs with
  | nil => rfl
  | cons e rest ih =>
    rw [countLoop, if_neg (h e (by simp))]
    exact ih (fun r hr => h r (by simp [hr]))

theorem countBsearch_spec (runs : List TSRun) (ts : String)
    (hsorted : ∀ i j : Nat, i < j → j < runs.length →
      (runs.getD i ⟨"", 0⟩).ts < (runs.getD j ⟨"", 0⟩).ts) :
    ∀ (fuel : Nat) (low high : Int), (high + 1 - low).toNat ≤ fuel →
    0 ≤ low → high < (runs.length : Int) →
    (∀ i : Nat, (i : Int) < low → i < runs.length → (runs.getD i ⟨"", 0⟩).ts < ts) →
    (∀ i : Nat, high < (i : Int) → i < runs.length → ts < (runs.getD i ⟨"", 0⟩).ts) →
    countBsearch runs ts low high = countLoop runs ts := by
  intro fuel
  induction fuel with
  | zero =>
    intro low high hfuel h0 _ hleft hright
    rw [countBsearch_stop runs ts low high (by omega)]
    refine (countLoop_eq_none runs ts (fun i hi => ?_)).symm
    by_cases hil : (i : Int) < low
    · exact ne_of_lt (hleft i hil hi)
    · exact (ne_of_lt (hright i (by omega) hi)).symm
  | succ fuel ih =>
    intro low high hfuel h0 hhigh hleft hright
    by_cases hlh : low ≤ high
    · rw [countBsearch_step runs ts low high hlh]
      have hmidlo : low ≤ (low + high) / 2 := by omega
      have hmidhi : (low + high) / 2 ≤ high := by omega
      have hmidlen : ((low + high) / 2).toNat < runs.length := by omega
      by_cases heq : (runs.getD ((low + high) / 2).toNat ⟨"", 0⟩).ts = ts
      · rw [if_pos heq]
        refine (countLoop_found runs ts ((low + high) / 2).toNat hmidlen heq
          (fun i hi => ?_)).symm
        exact ne_of_lt (heq ▸ hsorted i ((low + high) / 2).toNat hi hmidlen)
      · rw [if_neg heq]
        by_cases hlt : (runs.getD ((low + high) / 2).toNat ⟨"", 0⟩).ts < ts
        · rw [if_pos hlt]
          refine ih ((low + high) / 2 + 1) high (by omega) (by omega) hhigh ?_ hright
          intro i hi hilen
          rcases Nat.lt_or_ge i ((low + high) / 2).toNat with h1 | h1
          · exact lt_trans (hsorted i ((low + high) / 2).toNat h1 hmidlen) hlt
          · have : i = ((low + high) / 2).toNat := by omega
            rw [this]
            exact hlt
        · rw [if_neg hlt]
          have hgt : ts < (runs.getD ((low + high) / 2).toNat ⟨"", 0⟩).ts :=
            lt_of_le_of_ne (not_lt.mp hlt) (fun hcon => heq hcon.symm)
          refine ih low ((low + high) / 2 - 1) (by omega) h0 (by omega) hleft ?_
          intro i hi hilen
          rcases Nat.lt_or_ge ((low + high) / 2).toNat i with h1 | h1
          · exact lt_trans hgt (hsorted ((low + high) / 2).toNat i h1 hilen)
          · have : i = ((low + high) / 2).toNat := by omega
            rw [this]
            exact hgt
    · rw [countBsearch_stop runs ts low high hlh]
      refine (countLoop_eq_none runs ts (fun i hi => ?_)).symm
      by_cases hil : (i : Int) < low
      · exact ne_of_lt (hleft i hil hi)
      · exact (ne_of_lt (hright i (by omega) hi)).symm

/-- Claim C5: under the sorted-key precondition — the run sequence of the
(reachable) encoder state is strictly ordered by key — the binary-search
count strategy agrees with the linear one on every key: equal results
everywhere, a common `some` count for every present key, and a common
not-found for every absent key. -/
theorem count_strategies_agree (rows : List Row)
    (hsorted : List.Pairwise (fun a b => a.ts < b.ts) (buildRLE rows).TSRuns) (ts : String) :
    (buildRLE rows).GetCountofTSFaster ts = (buildRLE rows).GetCountofTS ts ∧
    ((∃ r ∈ (buildRLE rows).TSRuns, r.ts = ts) →
      ∃ c, (buildRLE rows).GetCountofTS ts = some c ∧
        (buildRLE rows).GetCountofTSFaster ts = some c) ∧
    ((∀ r ∈ (buildRLE rows).TSRuns, r.ts ≠ ts) →
      (buildRLE rows).GetCountofTS ts = none ∧
        (buildRLE rows).GetCountofTSFaster ts = none) := by
  have hidx : ∀ i j : Nat, i < j → j < (buildRLE rows).TSRuns.length →
      ((buildRLE rows).TSRuns.getD i ⟨"", 0⟩).ts <
        ((buildRLE rows).TSRuns.getD j ⟨"", 0⟩).ts := by
    intro i j hij hj
    rw [getD_of_lt _ _ _ (by omega), getD_of_lt _ _ _ hj]
    have := List.pairwise_iff_get.mp hsorted ⟨i, by omega⟩ ⟨j, hj⟩ hij
    simpa using this
  have hmain : (buildRLE rows).GetCountofTSFaster ts = (buildRLE rows).GetCountofTS ts := by
    rw [RLE.GetCountofTSFaster, RLE.GetCountofTS]
    exact countBsearch_spec (buildRLE rows).TSRuns ts hidx (buildRLE rows).TSRuns.length
      0 (((buildRLE rows).TSRuns.length : Int) - 1) (by omega) (by omega) (by omega)
      (fun i hi _ => absurd hi (by omega))
      (fun i hi hilen => absurd hilen (by omega))
  refine ⟨hmain, fun hmem => ?_, fun hnot => ?_⟩
  · obtain ⟨c, hc⟩ := countLoop_some_of_mem (buildRLE rows).TSRuns ts hmem
    refine ⟨c, hc, ?_⟩
    rw [hmain, RLE.GetCountofTS]
    exact hc
  · have hn := countLoop_none_of_not_mem (buildRLE rows).TSRuns ts hnot
    exact ⟨hn, by rw [hmain, RLE.GetCountofTS]; exact hn⟩

/-- Witness for C5: the six-row test scenario, whose three runs are in
sorted key order, queried at the present key of the middle run. -/
theorem count_strategies_agree_witness :
    (buildRLE [⟨1, 100, "10:00:00"⟩, ⟨2, 200, "10:00:00"⟩, ⟨3, 300, "10:00:02"⟩,
        ⟨4, 400, "10:00:02"⟩, ⟨5, 500, "10:00:02"⟩,
        ⟨6, 600, "10:00:03"⟩]).GetCountofTSFaster "10:00:02" =
      (buildRLE [⟨1, 100, "10:00:00"⟩, ⟨2, 200, "10:00:00"⟩, ⟨3, 300, "10:00:02"⟩,
        ⟨4, 400, "10:00:02"⟩, ⟨5, 500, "10:00:02"⟩,
        ⟨6, 600, "10:00:03"⟩]).GetCountofTS "10:00:02" :=
  (count_strategies_agree [⟨1, 100, "10:00:00"⟩, ⟨2, 200, "10:00:00"⟩, ⟨3, 300, "10:00:02"⟩,
    ⟨4, 400, "10:00:02"⟩, ⟨5, 500, "10:00:02"⟩, ⟨6, 600, "10:00:03"⟩]
    (by
      rw [show (buildRLE [⟨1, 100, "10:00:00"⟩, ⟨2, 200, "10:00:00"⟩, ⟨3, 300, "10:00:02"⟩,
        ⟨4, 400, "10:00:02"⟩, ⟨5, 500, "10:00:02"⟩, ⟨6, 600, "10:00:03"⟩]).TSRuns =
        [⟨"10:00:00", 2⟩, ⟨"10:00:02", 3⟩, ⟨"10:00:03", 1⟩] from by decide]
      simp [List.pairwise_cons, String.lt_iff_toList_lt]
      decide) "10:00:02").1

/-- Claim C6: when the sorted-key precondition is violated — keys appended
in the order "b", "a" — the binary-search count strategy returns a spurious
not-found for the present key "a", disagreeing with the linear strategy,
which returns its run count 1. -/
theorem count_fast_wrong_when_unsorted :
    (buildRLE [⟨1, 1, "b"⟩, ⟨2, 2, "a"⟩]).GetCountofTS "a" = some 1 ∧
    (buildRLE [⟨1, 1, "b"⟩, ⟨2, 2, "a"⟩]).GetCountofTSFaster "a" = none := by
  constructor
  · rfl
  · have hblta : ¬ ("b" : String) < "a" := by
      rw [String.lt_iff_toList_lt]
      decide
    rw [RLE.GetCountofTSFaster,
      show (buildRLE [⟨1, 1, "b"⟩, ⟨2, 2, "a"⟩]).TSRuns = [⟨"b", 1⟩, ⟨"a", 1⟩] from by decide,
      show ((([⟨"b", 1⟩, ⟨"a", 1⟩] : List TSRun).length : Int) - 1) = 1 by decide,
      countBsearch_step _ _ _ _ (by omega)]
    rw [if_neg (show ¬ (([⟨"b", 1⟩, ⟨"a", 1⟩] : List TSRun).getD
      (((0 : Int) + 1) / 2).toNat ⟨"", 0⟩).ts = "a" by decide)]
    rw [if_neg (show ¬ (([⟨"b", 1⟩, ⟨"a", 1⟩] : List TSRun).getD
      (((0 : Int) + 1) / 2).toNat ⟨"", 0⟩).ts < "a" from hblta)]
    exact countBsearch_stop _ _ _ _ (by omega)

end Rle

/-- Claim C4 (the code faults where the claim promises an explicit result):
on the freshly created empty encoder, `GetTSFromRowIDFaster 1` evaluates the
unguarded `tsRunEnds[len(tsRunEnds)-1]` access inside its range check and
panics (modelled as `none`), instead of returning the explicit empty result;
the `rowID ≤ 0` disjunct short-circuits, so `GetTSFromRowIDFaster 0` still
returns the explicit empty result. -/
theorem faster_range_check_faults_on_empty :
    Rle.InitRLE.GetTSFromRowIDFaster 1 = none ∧
    Rle.InitRLE.GetTSFromRowIDFaster 0 = some "" :=
  ⟨rfl, rfl⟩

/-- Claim C7: for encoders holding `n` rows, `ReconstructRow` applied to
`0`, `-1`, and `n + 1` fails with the row-not-found error (`none`) on both
the delta encoder and the RLE encoder (the embedded methods are pure, so
the state is trivially unchanged), and the empty delta encoder's
`VerifyDeltaEncodingCorrectness` returns `true`. -/
theorem boundary_behavior (rrows : List Rle.Row) (drows : List Delta.Row) :
    (Delta.buildDE drows).ReconstructRow 0 = none ∧
    (Delta.buildDE drows).ReconstructRow (-1) = none ∧
    (Delta.buildDE drows).ReconstructRow (((Delta.buildDE drows).idList.length : Int) + 1) =
      none ∧
    (Rle.buildRLE rrows).ReconstructRow 0 = none ∧
    (Rle.buildRLE rrows).ReconstructRow (-1) = none ∧
    (Rle.buildRLE rrows).ReconstructRow (((Rle.buildRLE rrows).idList.length : Int) + 1) =
      none ∧
    Delta.InitDE.VerifyDeltaEncodingCorrectness = true := by
  refine ⟨?_, ?_, ?_, ?_, ?_, ?_, rfl⟩
  · rw [Delta.DeltaEncoding.ReconstructRow, if_pos (Or.inl (by omega))]
  · rw [Delta.DeltaEncoding.ReconstructRow, if_pos (Or.inl (by omega))]
  · rw [Delta.DeltaEncoding.ReconstructRow, if_pos (Or.inr (by omega))]
  · rw [Rle.RLE.ReconstructRow, if_pos (Or.inl (by omega))]
  · rw [Rle.RLE.ReconstructRow, if_pos (Or.inl (by omega))]
  · rw [Rle.RLE.ReconstructRow, if_pos (Or.inr (by omega))]

namespace Delta

theorem deltasFrom_length (p : Int) (l : List Int) : (deltasFrom p l).length = l.length := by
  induction l generalizing p with
  | nil => rfl
  | cons y rest ih => simp [deltasFrom, ih]

theorem deltas_length (l : List Int) : (deltas l).length = l.length := by
  cases l with
  | nil => rfl
  | cons x rest => simp [deltas, deltasFrom_length]

theorem getLast?_getD_cons (y p : Int) (rest : List Int) :
    (y :: rest).getLast?.getD p = rest.getLast?.getD y := by
  cases rest with
  | nil => rfl
  | cons d tl =>
    rw [List.getLast?_cons_cons]
    rw [List.getLast?_eq_getLast (d :: tl) (by simp)]
    rfl

theorem deltasFrom_concat (l : List Int) : ∀ (p v : Int),
    deltasFrom p (l ++ [v]) = deltasFrom p l ++ [v - l.getLast?.getD p] := by
  induction l with
  | nil => intro p v; simp [deltasFrom]
  | cons y rest ih =>
    intro p v
    rw [List.cons_append, deltasFrom, ih y v, getLast?_getD_cons y p rest]
    simp [deltasFrom]

theorem deltas_concat (l : List Int) (v : Int) :
    deltas (l ++ [v]) =
      if l.length = 0 then [0] else deltas l ++ [v - l.getLast?.getD 0] := by
  cases l with
  | nil => simp [deltas, deltasFrom]
  | cons x rest =>
    rw [List.cons_append, deltas, deltasFrom_concat rest x v,
      if_neg (by simp), deltas, getLast?_getD_cons x 0 rest]
    simp

theorem cps_concat (xs : List Int) (v : Int) :
    cps (xs ++ [v]) =
      if xs.length = 0 then [v]
      else if (xs.length + 1) % 4 = 0 then cps xs ++ [v] else cps xs := by
  by_cases h0 : xs.length = 0
  · have : xs = [] := List.length_eq_zero.mp h0
    subst this
    simp [cps]
  · rw [if_neg h0]
    have hmap : ∀ g ∈ List.range (xs.length / 4),
        (xs ++ [v]).getD ((g + 1) * 4 - 1) 0 = xs.getD ((g + 1) * 4 - 1) 0 := by
      intro g hgr
      have hg : g < xs.length / 4 := List.mem_range.mp hgr
      exact List.getD_append _ _ _ _ (by omega)
    by_cases hm : (xs.length + 1) % 4 = 0
    · rw [if_pos hm, cps, cps, if_neg (by simp), if_neg h0]
      rw [List.getD_append _ _ _ _ (by omega)]
      rw [show (xs ++ [v]).length = xs.length + 1 by simp]
      rw [show (xs.length + 1) / 4 = xs.length / 4 + 1 by omega]
      rw [List.range_succ, List.map_append, List.map_congr_left hmap]
      rw [List.map_singleton]
      rw [show (xs.length / 4 + 1) * 4 - 1 = xs.length by omega]
      rw [List.getD_append_right _ _ _ _ (by omega)]
      simp
    · rw [if_neg hm, cps, cps, if_neg (by simp), if_neg h0]
      rw [List.getD_append _ _ _ _ (by omega)]
      rw [show (xs ++ [v]).length = xs.length + 1 by simp]
      rw [show (xs.length + 1) / 4 = xs.length / 4 by omega]
      rw [List.map_congr_left hmap]

theorem cps_length (xs : List Int) (h : xs.length ≠ 0) :
    (cps xs).length = 1 + xs.length / 4 := by
  rw [cps, if_neg h]
  simp
  omega

theorem cps_getD_zero (xs : List Int) (h : xs.length ≠ 0) :
    (cps xs).getD 0 0 = xs.getD 0 0 := by
  rw [cps, if_neg h, List.getD_cons_zero]

theorem cps_getD_succ (xs : List Int) (g : Nat) (hg : g < xs.length / 4) :
    (cps xs).getD (g + 1) 0 = xs.getD ((g + 1) * 4 - 1) 0 := by
  rw [cps, if_neg (by omega), List.getD_cons_succ]
  have h1 : (List.range (xs.length / 4)).getD g 0 = g := by
    rw [getD_of_lt _ _ _ (by simpa using hg)]
    simp
  rw [getD_map_of_lt _ _ _ 0 _ (by simpa using hg), h1]

theorem AppendRow_fields (de : DeltaEncoding) (row : Row) :
    ((de.AppendRow row).idList = de.idList ++ [row.id]) ∧
    ((de.AppendRow row).originalRows = de.originalRows ++ [row]) ∧
    ((de.AppendRow row).lastValue = row.value) ∧
    ((de.AppendRow row).lastTs = row.ts) ∧
    ((de.AppendRow row).checkpointInterval = de.checkpointInterval) ∧
    ((de.AppendRow row).deltaValueList =
      if de.idList.length = 0 then de.deltaValueList ++ [0]
      else de.deltaValueList ++ [row.value - de.lastValue]) ∧
    ((de.AppendRow row).deltaTsList =
      if de.idList.length = 0 then de.deltaTsList ++ [0]
      else de.deltaTsList ++ [row.ts - de.lastTs]) ∧
    ((de.AppendRow row).checkpointValues =
      (if de.idList.length = 0 then de.checkpointValues ++ [row.value]
        else de.checkpointValues) ++
      (if (de.idList.length + 1) % de.checkpointInterval = 0 then [row.value] else [])) ∧
    ((de.AppendRow row).checkpointTs =
      (if de.idList.length = 0 then de.checkpointTs ++ [row.ts] else de.checkpointTs) ++
      (if (de.idList.length + 1) % de.checkpointInterval = 0 then [row.ts] else [])) := by
  by_cases h0 : de.idList.length = 0 <;>
    simp [DeltaEncoding.AppendRow, h0] <;>
    split <;>
    simp_all

theorem buildDE_fields (rows : List Row) :
    (buildDE rows).idList = rows.map Row.id ∧
    (buildDE rows).deltaValueList = deltas (rows.map Row.value) ∧
    (buildDE rows).deltaTsList = deltas (rows.map Row.ts) ∧
    (buildDE rows).originalRows = rows ∧
    (buildDE rows).lastValue = (rows.map Row.value).getLast?.getD 0 ∧
    (buildDE rows).lastTs = (rows.map Row.ts).getLast?.getD 0 ∧
    (buildDE rows).checkpointInterval = 4 ∧
    (buildDE rows).checkpointValues = cps (rows.map Row.value) ∧
    (buildDE rows).checkpointTs = cps (rows.map Row.ts) := by
  induction rows using List.reverseRecOn with
  | nil => exact ⟨rfl, rfl, rfl, rfl, rfl, rfl, rfl, rfl, rfl⟩
  | append_singleton rs r ih =>
    obtain ⟨hid, hdv, hdt, ho, hlv, hlt, hci, hcv, hct⟩ := ih
    have hfold : buildDE (rs ++ [r]) = (buildDE rs).AppendRow r := by
      rw [buildDE, buildDE, List.foldl_append, List.foldl_cons, List.foldl_nil]
    obtain ⟨f1, f2, f3, f4, f5, f6, f7, f8, f9⟩ := AppendRow_fields (buildDE rs) r
    have hlen : (buildDE rs).idList.length = rs.length := by rw [hid]; simp
    rw [hfold]
    refine ⟨?_, ?_, ?_, ?_, ?_, ?_, ?_, ?_, ?_⟩
    · rw [f1, hid]
      simp
    · rw [f6, hlen, hdv, hlv, List.map_append, List.map_singleton, deltas_concat]
      by_cases hz : rs.length = 0
      · rw [if_pos hz, if_pos (by simpa using hz)]
        have : rs = [] := List.length_eq_zero.mp hz
        subst this
        rfl
      · rw [if_neg hz, if_neg (by simpa using hz)]
    · rw [f7, hlen, hdt, hlt, List.map_append, List.map_singleton, deltas_concat]
      by_cases hz : rs.length = 0
      · rw [if_pos hz, if_pos (by simpa using hz)]
        have : rs = [] := List.length_eq_zero.mp hz
        subst this
        rfl
      · rw [if_neg hz, if_neg (by simpa using hz)]
    · rw [f2, ho]
    · rw [f3, List.map_append, List.map_singleton, List.getLast?_concat]
      rfl
    · rw [f4, List.map_append, List.map_singleton, List.getLast?_concat]
      rfl
    · rw [f5, hci]
    · rw [f8, hlen, hci, hcv, List.map_append, List.map_singleton, cps_concat]
      rw [show (rs.map Row.value).length = rs.length by simp]
      by_cases hz : rs.length = 0
      · have : rs = [] := List.length_eq_zero.mp hz
        subst this
        simp [cps]
      · rw [if_neg hz, if_neg hz]
        by_cases hm : (rs.length + 1) % 4 = 0
        · rw [if_pos hm, if_pos hm]
        · rw [if_neg hm, if_neg hm]
          simp
    · rw [f9, hlen, hci, hct, List.map_append, List.map_singleton, cps_concat]
      rw [show (rs.map Row.ts).length = rs.length by simp]
      by_cases hz : rs.length = 0
      · have : rs = [] := List.length_eq_zero.mp hz
        subst this
        simp [cps]
      · rw [if_neg hz, if_neg hz]
        by_cases hm : (rs.length + 1) % 4 = 0
        · rw [if_pos hm, if_pos hm]
        · rw [if_neg hm, if_neg hm]
          simp

theorem deltaSumFrom_zero_len (l : List Int) (lo hi : Nat) (h : hi < lo) :
    deltaSumFrom l lo hi = 0 := by
  rw [deltaSumFrom, show hi + 1 - lo = 0 by omega]
  rfl

theorem deltaSumFrom_step (l : List Int) (lo hi : Nat) (h : lo ≤ hi) :
    deltaSumFrom l lo hi = l.getD lo 0 + deltaSumFrom l (lo + 1) hi := by
  rw [deltaSumFrom, deltaSumFrom, show hi + 1 - lo = (hi + 1 - (lo + 1)) + 1 by omega]
  rfl

theorem deltasFrom_getD (l : List Int) : ∀ (p : Int) (t : Nat), t < l.length →
    (deltasFrom p l).getD t 0 =
      l.getD t 0 - (if t = 0 then p else l.getD (t - 1) 0) := by
  induction l with
  | nil => intro p t ht; simp at ht
  | cons y rest ih =>
    intro p t ht
    cases t with
    | zero => simp [deltasFrom]
    | succ t =>
      rw [deltasFrom, List.getD_cons_succ, ih y t (by simpa using ht),
        if_neg (Nat.succ_ne_zero t), List.getD_cons_succ]
      congr 1
      cases t with
      | zero => simp
      | succ u => simp [List.getD_cons_succ]

theorem deltas_getD_succ (xs : List Int) (t : Nat) (h1 : 1 ≤ t) (h2 : t < xs.length) :
    (deltas xs).getD t 0 = xs.getD t 0 - xs.getD (t - 1) 0 := by
  cases xs with
  | nil => simp at h2
  | cons x rest =>
    cases t with
    | zero => omega
    | succ t =>
      rw [deltas, List.getD_cons_succ, deltasFrom_getD rest x t (by simpa using h2),
        List.getD_cons_succ]
      congr 1
      cases t with
      | zero => simp
      | succ u => simp [List.getD_cons_succ]

theorem deltas_getD_zero (xs : List Int) (h : xs.length ≠ 0) :
    (deltas xs).getD 0 0 = 0 := by
  cases xs with
  | nil => simp at h
  | cons x rest => rfl

theorem deltaSumFrom_telescope (xs : List Int) : ∀ (fuel lo hi : Nat), hi + 1 - lo ≤ fuel →
    1 ≤ lo → lo ≤ hi + 1 → hi < xs.length →
    deltaSumFrom (deltas xs) lo hi = xs.getD hi 0 - xs.getD (lo - 1) 0 := by
  intro fuel
  induction fuel with
  | zero =>
    intro lo hi hf h1 h2 _
    have hle : lo = hi + 1 := by omega
    rw [deltaSumFrom_zero_len _ _ _ (by omega), hle]
    simp
  | succ fuel ih =>
    intro lo hi hf h1 h2 hlen
    by_cases hc : lo ≤ hi
    · rw [deltaSumFrom_step _ _ _ hc]
      rw [ih (lo + 1) hi (by omega) (by omega) (by omega) hlen]
      rw [deltas_getD_succ xs lo h1 (by omega)]
      rw [show lo + 1 - 1 = lo from rfl]
      omega
    · have hle : lo = hi + 1 := by omega
      rw [deltaSumFrom_zero_len _ _ _ (by omega), hle]
      simp

theorem deltaSumFrom_from_zero (xs : List Int) (hi : Nat) (h : hi < xs.length) :
    deltaSumFrom (deltas xs) 0 hi = xs.getD hi 0 - xs.getD 0 0 := by
  rw [deltaSumFrom_step _ _ _ (by omega)]
  rw [deltas_getD_zero xs (by omega)]
  by_cases hhi : hi = 0
  · subst hhi
    rw [deltaSumFrom_zero_len _ _ _ (by omega)]
    simp
  · rw [deltaSumFrom_telescope xs (hi + 1) 1 hi (by omega) (by omega) (by omega) h]
    simp

theorem cps_reconstruct (xs : List Int) (i : Nat) (h : i < xs.length) :
    (cps xs).getD (i / 4) 0 + deltaSumFrom (deltas xs) (i / 4 * 4) i = xs.getD i 0 := by
  by_cases hg : i / 4 = 0
  · rw [hg]
    rw [cps_getD_zero xs (by omega)]
    rw [show (0 * 4 : Nat) = 0 from rfl]
    rw [deltaSumFrom_from_zero xs i h]
    ring
  · obtain ⟨g, hgeq⟩ : ∃ g, i / 4 = g + 1 := ⟨i / 4 - 1, by omega⟩
    rw [hgeq]
    rw [cps_getD_succ xs g (by omega)]
    rw [deltaSumFrom_telescope xs (i + 1) ((g + 1) * 4) i (by omega) (by omega) (by omega) h]
    ring_nf

/-- Claim C1: delta-encoder round trip.  For every sequence of rows appended
with contiguous 1-based ids (row `i` has id `i`) and every row id in
`[1, n]`, `ReconstructRow` returns exactly the corresponding appended row —
its id, value and timestamp — including when `n` is not a multiple of
`checkpointInterval`. -/
theorem delta_round_trip (rows : List Row)
    (hids : ∀ i : Nat, i < rows.length → (rows.getD i default).id = (i : Int) + 1)
    (rowID : Int) (h1 : 1 ≤ rowID) (h2 : rowID ≤ (rows.length : Int)) :
    (buildDE rows).ReconstructRow rowID = some (rows.getD (rowID.toNat - 1) default) := by
  obtain ⟨hid, hdv, hdt, _, _, _, hci, hcv, hct⟩ := buildDE_fields rows
  have hlen : (buildDE rows).idList.length = rows.length := by rw [hid]; simp
  rw [DeltaEncoding.ReconstructRow, if_neg (by rw [hlen]; push_neg; omega)]
  rw [hci, hcv, hct, hdv, hdt]
  have hilen : rowID.toNat - 1 < rows.length := by omega
  have hv := cps_reconstruct (rows.map Row.value) (rowID.toNat - 1) (by simpa using hilen)
  have ht := cps_reconstruct (rows.map Row.ts) (rowID.toNat - 1) (by simpa using hilen)
  dsimp only
  rw [hv, ht]
  rw [getD_map_of_lt Row.value rows _ default 0 hilen,
    getD_map_of_lt Row.ts rows _ default 0 hilen]
  nth_rewrite 1 [show rowID = (rows.getD (rowID.toNat - 1) default).id by
    rw [hids _ hilen]; omega]
  rfl

/-- Witness for C1: the ten-row scenario of the repository's test (with
contiguous ids 1..10, `n = 10` not a multiple of 4), reconstructed at row
id 6. -/
theorem delta_round_trip_witness :
    (buildDE [⟨1, 10, 1000⟩, ⟨2, 20, 1002⟩, ⟨3, 30, 1004⟩, ⟨4, 30, 1006⟩, ⟨5, 20, 1008⟩,
        ⟨6, 50, 1010⟩, ⟨7, 10, 1012⟩, ⟨8, 15, 1014⟩, ⟨9, 10, 1016⟩,
        ⟨10, 10, 1018⟩]).ReconstructRow 6 =
      some (([⟨1, 10, 1000⟩, ⟨2, 20, 1002⟩, ⟨3, 30, 1004⟩, ⟨4, 30, 1006⟩, ⟨5, 20, 1008⟩,
        ⟨6, 50, 1010⟩, ⟨7, 10, 1012⟩, ⟨8, 15, 1014⟩, ⟨9, 10, 1016⟩,
        ⟨10, 10, 1018⟩] : List Row).getD ((6 : Int).toNat - 1) default) :=
  delta_round_trip [⟨1, 10, 1000⟩, ⟨2, 20, 1002⟩, ⟨3, 30, 1004⟩, ⟨4, 30, 1006⟩, ⟨5, 20, 1008⟩,
    ⟨6, 50, 1010⟩, ⟨7, 10, 1012⟩, ⟨8, 15, 1014⟩, ⟨9, 10, 1016⟩, ⟨10, 10, 1018⟩]
    (by decide) 6 (by decide) (by decide)

/-- Counterexample to claim C2 as stated: with five rows of values
`[0, 0, 0, 10, 20]`, `checkpointValue[1]` is `10` — the value of the row at
0-based index 3 — and not the value `20` of the row at 0-based index
`1 * checkpointInterval = 4` that the claim names. -/
theorem checkpoint_position_claim_false :
    (buildDE [⟨1, 0, 0⟩, ⟨2, 0, 0⟩, ⟨3, 0, 0⟩, ⟨4, 10, 0⟩,
        ⟨5, 20, 0⟩]).checkpointValues.getD 1 0 ≠
      (([⟨1, 0, 0⟩, ⟨2, 0, 0⟩, ⟨3, 0, 0⟩, ⟨4, 10, 0⟩, ⟨5, 20, 0⟩] : List Row).getD
        (1 * 4) default).value := by
  decide

/-- Claim C2 amended: after any sequence of `AppendRow` calls,
`checkpointValue[g]` (and `checkpointTs[g]`) equals the absolute value
(timestamp) of the row at 0-based index `g * checkpointInterval - 1` for
every checkpoint index `g > 0` with `g ≤ n / checkpointInterval`, and
`checkpointValue[0]` equals that of row index 0. -/
theorem checkpoint_position (rows : List Row) :
    (rows.length ≠ 0 →
      (buildDE rows).checkpointValues.getD 0 0 = (rows.getD 0 default).value ∧
      (buildDE rows).checkpointTs.getD 0 0 = (rows.getD 0 default).ts) ∧
    (∀ g : Nat, 0 < g → g ≤ rows.length / 4 →
      (buildDE rows).checkpointValues.getD g 0 = (rows.getD (g * 4 - 1) default).value ∧
      (buildDE rows).checkpointTs.getD g 0 = (rows.getD (g * 4 - 1) default).ts) := by
  obtain ⟨_, _, _, _, _, _, _, hcv, hct⟩ := buildDE_fields rows
  rw [hcv, hct]
  constructor
  · intro hne
    have hpos : 0 < rows.length := by omega
    rw [cps_getD_zero _ (by simpa using hne), cps_getD_zero _ (by simpa using hne)]
    rw [getD_map_of_lt Row.value rows 0 default 0 hpos,
      getD_map_of_lt Row.ts rows 0 default 0 hpos]
    exact ⟨rfl, rfl⟩
  · intro g hg hgle
    obtain ⟨u, rfl⟩ : ∃ u, g = u + 1 := ⟨g - 1, by omega⟩
    have hidx : (u + 1) * 4 - 1 < rows.length := by omega
    rw [cps_getD_succ _ u (by simp; omega), cps_getD_succ _ u (by simp; omega)]
    rw [getD_map_of_lt Row.value rows _ default 0 hidx,
      getD_map_of_lt Row.ts rows _ default 0 hidx]
    exact ⟨rfl, rfl⟩

/-- Witness for the amended C2: the five-row input of the counterexample,
at checkpoint index `g = 1`, whose stored value 10 is that of the row at
0-based index `1 * 4 - 1 = 3`. -/
theorem checkpoint_position_witness :
    (buildDE [⟨1, 0, 0⟩, ⟨2, 0, 0⟩, ⟨3, 0, 0⟩, ⟨4, 10, 0⟩,
        ⟨5, 20, 0⟩]).checkpointValues.getD 1 0 =
      (([⟨1, 0, 0⟩, ⟨2, 0, 0⟩, ⟨3, 0, 0⟩, ⟨4, 10, 0⟩, ⟨5, 20, 0⟩] : List Row).getD
        (1 * 4 - 1) default).value ∧
    (buildDE [⟨1, 0, 0⟩, ⟨2, 0, 0⟩, ⟨3, 0, 0⟩, ⟨4, 10, 0⟩,
        ⟨5, 20, 0⟩]).checkpointTs.getD 1 0 =
      (([⟨1, 0, 0⟩, ⟨2, 0, 0⟩, ⟨3, 0, 0⟩, ⟨4, 10, 0⟩, ⟨5, 20, 0⟩] : List Row).getD
        (1 * 4 - 1) default).ts :=
  (checkpoint_position [⟨1, 0, 0⟩, ⟨2, 0, 0⟩, ⟨3, 0, 0⟩, ⟨4, 10, 0⟩, ⟨5, 20, 0⟩]).2 1
    (by decide) (by decide)

/-- Claim C9: after `n > 0` appends, both checkpoint columns hold exactly
`1 + n / checkpointInterval` entries. -/
theorem checkpoint_count (rows : List Row) (h : rows.length ≠ 0) :
    (buildDE rows).checkpointValues.length = 1 + rows.length / 4 ∧
    (buildDE rows).checkpointTs.length = 1 + rows.length / 4 := by
  obtain ⟨_, _, _, _, _, _, _, hcv, hct⟩ := buildDE_fields rows
  rw [hcv, hct, cps_length _ (by simpa using h), cps_length _ (by simpa using h)]
  simp

/-- Witness for C9: five appended rows (not a multiple of 4) give
`1 + 5 / 4 = 2` checkpoints. -/
theorem checkpoint_count_witness :
    (buildDE [⟨1, 0, 0⟩, ⟨2, 0, 0⟩, ⟨3, 0, 0⟩, ⟨4, 10, 0⟩,
        ⟨5, 20, 0⟩]).checkpointValues.length = 1 + 5 / 4 ∧
    (buildDE [⟨1, 0, 0⟩, ⟨2, 0, 0⟩, ⟨3, 0, 0⟩, ⟨4, 10, 0⟩,
        ⟨5, 20, 0⟩]).checkpointTs.length = 1 + 5 / 4 :=
  checkpoint_count [⟨1, 0, 0⟩, ⟨2, 0, 0⟩, ⟨3, 0, 0⟩, ⟨4, 10, 0⟩, ⟨5, 20, 0⟩] (by decide)

/-- Claim C10 (implicit behavior): `ReconstructRow` sets the returned id to
the `rowID` argument itself, not to the stored `idColumn[rowID-1]` entry;
consequently, for the single appended row with id 7, `ReconstructRow 1`
returns id 1 (not 7), and `ReconstructTable`, which feeds the stored id 7
back into `ReconstructRow`, fails. -/
theorem reconstruct_id_is_argument (rows : List Row) (rowID : Int)
    (h1 : 1 ≤ rowID) (h2 : rowID ≤ (rows.length : Int)) :
    ((buildDE rows).ReconstructRow rowID).map Row.id = some rowID ∧
    ((buildDE [⟨7, 5, 9⟩]).ReconstructRow 1).map Row.id = some 1 ∧
    (buildDE [⟨7, 5, 9⟩]).idList = [7] ∧
    (buildDE [⟨7, 5, 9⟩]).ReconstructTable = none := by
  refine ⟨?_, by decide, by decide, by decide⟩
  have hlen : (buildDE rows).idList.length = rows.length := by
    rw [(buildDE_fields rows).1]
    simp
  rw [DeltaEncoding.ReconstructRow, if_neg (by rw [hlen]; push_neg; omega)]
  rfl

/-- Witness for C10 at a concrete input: two appended rows, queried at row
id 2. -/
theorem reconstruct_id_is_argument_witness :
    ((buildDE [⟨1, 10, 20⟩, ⟨2, 11, 21⟩]).ReconstructRow 2).map Row.id = some 2 ∧
    ((buildDE [⟨7, 5, 9⟩]).ReconstructRow 1).map Row.id = some 1 ∧
    (buildDE [⟨7, 5, 9⟩]).idList = [7] ∧
    (buildDE [⟨7, 5, 9⟩]).ReconstructTable = none :=
  reconstruct_id_is_argument [⟨1, 10, 20⟩, ⟨2, 11, 21⟩] 2 (by decide) (by decide)

end Delta
